import Mathlib

/-! # stretchyhash

A shallow embedding of `lib/stretchyhash/stretchyhash.go` and the properties of it.

Conventions of the embedding.

* A Go `byte` is a `Fin 256`; its `+` wraps modulo 256, as Go's does.
* A Go slice is a `List`; indexing outside `0 .. len-1` is the run-time panic
  `index out of range`. A function that can panic returns a `Run α`.
* A Go `int` is an `Int` (64-bit target). Arithmetic on lengths and indices is exact: a
  slice that fits in memory has fewer than `2^48` elements, and for the stretch factors
  that `New` admits this keeps every length and index far below `2^63`. Shifts, the sum
  that builds a chunk value and the product in `Size()`, whose operand comes from the
  base hash, get Go's semantics in full: a negative shift count panics and the result
  wraps to 64 bits (`shlInt`, `wrapInt`).
* The base hash (`hash.Hash`, obtained from `crypto.Hash.New()`) is code of Go's standard
  library: it is a parameter, a record of its methods over a state of type `σ`.
-/

namespace stretchyhash

/-- Go `byte`. -/
abbrev Byte := Fin 256

/-- The ways a run stops without returning a value. The first three are run-time panics of
Go; `outOfFuel` is the embedding's own, for a loop that was given too few steps. -/
inductive Panic where
  | indexOutOfRange
  | negativeShift
  | makeLenOutOfRange
  | outOfFuel
  deriving DecidableEq, Repr

/-- A computation that returns a value or panics. -/
inductive Run (α : Type) where
  | ok (a : α)
  | panic (p : Panic)
  deriving DecidableEq, Repr

/-- Sequencing: a panic ends the run. -/
def Run.bind {α β : Type} (x : Run α) (f : α → Run β) : Run β :=
  match x with
  | .ok a => f a
  | .panic p => .panic p

instance : Monad Run where
  pure := Run.ok
  bind := Run.bind

/-- Two's-complement wrap of an integer to 64 bits (Go `int` on a 64-bit target). -/
def wrapInt (x : Int) : Int :=
  (x + 9223372036854775808) % 18446744073709551616 - 9223372036854775808

/-- Go `a << n` on `int`: panics on a negative count, is `0` from 64 bits on. -/
def shlInt (a n : Int) : Run Int :=
  if n < 0 then .panic .negativeShift
  else if 64 ≤ n then .ok 0
  else .ok (wrapInt (a * 2 ^ n.toNat))

/-- Go `byte(1) << j`, for a count `j ≥ 0`. -/
def shlByte (j : Int) : Byte := Fin.ofNat (1 <<< j.toNat)

/-- Go `make([]T, n)`: a slice of `n` zero values. -/
def make {α : Type} (n : Int) (zero : α) : Run (List α) :=
  if n < 0 then .panic .makeLenOutOfRange else .ok (List.replicate n.toNat zero)

/-- Go `xs[i]` as a value. -/
def index {α : Type} (xs : List α) (i : Int) : Run α :=
  if i < 0 then .panic .indexOutOfRange
  else match xs[i.toNat]? with
    | some x => .ok x
    | none => .panic .indexOutOfRange

/-- Go `xs[i] = v`. -/
def assign {α : Type} (xs : List α) (i : Int) (v : α) : Run (List α) :=
  if i < 0 then .panic .indexOutOfRange
  else if i.toNat < xs.length then .ok (xs.set i.toNat v)
  else .panic .indexOutOfRange

/-- The inner loop of `toBits`, `for j := 0; j < 8; j++`, from `j` on with `n` passes left:
`result[8*i+j] = (b & (1 << j)) != 0`. -/
def toBitsByte (i : Int) (b : Byte) : Nat → Int → List Bool → Run (List Bool)
  | 0, _, result => .ok result
  | n + 1, j, result => do
      let result ← assign result (8 * i + j) ((b &&& shlByte j) != 0)
      toBitsByte i b n (j + 1) result

/-- The outer loop of `toBits`, `for i, b := range bytes`, from index `i` on. -/
def toBitsLoop : List Byte → Int → List Bool → Run (List Bool)
  | [], _, result => .ok result
  | b :: rest, i, result => do
      let result ← toBitsByte i b 8 0 result
      toBitsLoop rest (i + 1) result

/-- Go `func toBits(bytes []byte) []bool`. -/
def toBits (bytes : List Byte) : Run (List Bool) := do
  let result ← make ((bytes.length : Int) * 8) false
  toBitsLoop bytes 0 result

/-- The loop of `fromBits`, `for i, b := range bits`, from index `i` on:
`if b { result[i/8] += (1 << (i % 8)) }`. The index `i` is never negative, where Go's
truncating `/` and `%` are `Int`'s. -/
def fromBitsLoop : List Bool → Int → List Byte → Run (List Byte)
  | [], _, result => .ok result
  | b :: rest, i, result => do
      let result ←
        if b then do
          let old ← index result (i / 8)
          assign result (i / 8) (old + shlByte (i % 8))
        else pure result
      fromBitsLoop rest (i + 1) result

/-- Go `func fromBits(bits []bool) []byte`. -/
def fromBits (bits : List Bool) : Run (List Byte) := do
  let result ← make ((bits.length : Int) / 8) (0 : Byte)
  fromBitsLoop bits 0 result

/-- The head of `stretch`, up to the loop: `bits`, `chunkWidth` and the fresh `resultBits`
of `len(bits) * (1 << (chunkWidth - stretch))` false bits. -/
def stretchInit (data : List Byte) (stretch : Int) : Run (List Bool × Int × List Bool) := do
  let bits ← toBits data
  let chunkWidth ← shlInt 1 stretch
  let factor ← shlInt 1 (wrapInt (chunkWidth - stretch))
  let resultBits ← make ((bits.length : Int) * factor) false
  pure (bits, chunkWidth, resultBits)

/-- The inner loop of `stretch`, `for j := 0; j < chunkWidth; j++`, from `j` on with `n`
passes left: `if bits[8*i+j] { chunk += (1 << j) }`. -/
def stretchChunk (bits : List Bool) (i : Int) : Nat → Int → Int → Run Int
  | 0, _, chunk => .ok chunk
  | n + 1, j, chunk => do
      let bit ← index bits (8 * i + j)
      let chunk ← if bit then do
            let one ← shlInt 1 j
            pure (wrapInt (chunk + one))
          else pure chunk
      stretchChunk bits i n (j + 1) chunk

/-- One pass of the outer loop of `stretch`, at index `i`: the chunk is read and
`resultBits[i*chunkWidth+chunk] = true`. -/
def stretchPass (bits : List Bool) (chunkWidth i : Int) (resultBits : List Bool) :
    Run (List Bool) := do
  let chunk ← stretchChunk bits i chunkWidth.toNat 0 0
  assign resultBits (i * chunkWidth + chunk) true

/-- The outer loop of `stretch`, `for i := 0; i < len(resultBits); i += chunkWidth`, from
`i` on, given `fuel` passes. -/
def stretchLoop (bits : List Bool) (chunkWidth : Int) : Nat → Int → List Bool → Run (List Bool)
  | 0, i, resultBits =>
      if i < resultBits.length then .panic .outOfFuel else .ok resultBits
  | fuel + 1, i, resultBits =>
      if i < resultBits.length then do
        let resultBits ← stretchPass bits chunkWidth i resultBits
        stretchLoop bits chunkWidth fuel (i + chunkWidth) resultBits
      else .ok resultBits

/-- Go `func stretch(data []byte, stretch int) []byte`. The loop is given one pass for every
bit of `resultBits`, which is enough as soon as `chunkWidth` is positive. -/
def stretch (data : List Byte) (stretch : Int) : Run (List Byte) := do
  let (bits, chunkWidth, resultBits) ← stretchInit data stretch
  let resultBits ← stretchLoop bits chunkWidth resultBits.length 0 resultBits
  fromBits resultBits

/-- Go `error` values, as the package builds them: `errors.New(text)` and
`fmt.Errorf` with a `%w` verb, which keeps the wrapped error next to the message. -/
inductive GoError where
  | errorsNew (text : String)
  | errorf (text : String) (wrapped : GoError)
  deriving DecidableEq, Repr

/-- The `Error()` method: the message. -/
def GoError.Error : GoError → String
  | .errorsNew text => text
  | .errorf text _ => text

/-- Go `errors.Is(err, target)` for these errors: `target` is `err` or is wrapped in it. -/
def GoError.Is : GoError → GoError → Bool
  | .errorsNew text, target => decide (GoError.errorsNew text = target)
  | .errorf text wrapped, target =>
      decide (GoError.errorf text wrapped = target) || GoError.Is wrapped target

/-- The method set of Go's `hash.Hash`, over the state `σ` of the hash. `Sum` returns the
state too, so that a base hash whose `Sum` disturbs its state can be told apart. -/
structure Hash (σ : Type) where
  Write : σ → List Byte → σ × Int × Option GoError
  Sum : σ → List Byte → σ × List Byte
  Reset : σ → σ
  Size : σ → Int
  BlockSize : σ → Int

/-- Go's `crypto.Hash`, for an algorithm linked into the binary: its method set and the
state of the fresh instance that `h.New()` returns. -/
structure CryptoHash (σ : Type) where
  methods : Hash σ
  New : σ

/-- Go `const stretchLimit int = 4`. -/
def stretchLimit : Int := 4

/-- Go `ErrTooMuchStretch = errors.New("unsupported stretch length")`. -/
def ErrTooMuchStretch : GoError := .errorsNew "unsupported stretch length"

/-- Go `type stretchyHash struct`: the base hash `h` (its method set and its state) and the
stretch factor. -/
structure stretchyHash (σ : Type) where
  methods : Hash σ
  h : σ
  stretch : Int

/-- Go `func New(h crypto.Hash, stretch int) (hash.Hash, error)`; `none` is Go's `nil`. -/
def New {σ : Type} (h : CryptoHash σ) (stretch : Int) :
    Option (stretchyHash σ) × Option GoError :=
  if stretch < 1 then
    (none, some (.errorf
      (ErrTooMuchStretch.Error ++ ": " ++ toString stretch ++ " (min: 1)") ErrTooMuchStretch))
  else if stretch > stretchLimit then
    (none, some (.errorf
      (ErrTooMuchStretch.Error ++ ": " ++ toString stretch
        ++ " (max: " ++ toString stretchLimit ++ ")") ErrTooMuchStretch))
  else
    (some { methods := h.methods, h := h.New, stretch := stretch }, none)

/-- Go `func (sh *stretchyHash) Write(b []byte) (n int, err error)`. -/
def stretchyHash.Write {σ : Type} (sh : stretchyHash σ) (b : List Byte) :
    stretchyHash σ × Int × Option GoError :=
  let r := sh.methods.Write sh.h b
  ({ sh with h := r.1 }, r.2.1, r.2.2)

/-- Go `func (sh *stretchyHash) Sum(b []byte) []byte`. -/
def stretchyHash.Sum {σ : Type} (sh : stretchyHash σ) (b : List Byte) :
    Run (stretchyHash σ × List Byte) := do
  let r := sh.methods.Sum sh.h []
  let stretched ← stretchyhash.stretch r.2 sh.stretch
  pure ({ sh with h := r.1 }, b ++ stretched)

/-- Go `func (sh *stretchyHash) Reset()`. -/
def stretchyHash.Reset {σ : Type} (sh : stretchyHash σ) : stretchyHash σ :=
  { sh with h := sh.methods.Reset sh.h }

/-- Go `func (sh *stretchyHash) Size() int`:
`sh.h.Size() * (1 << ((1 << sh.stretch) - sh.stretch))`. -/
def stretchyHash.Size {σ : Type} (sh : stretchyHash σ) : Run Int := do
  let baseSize := sh.methods.Size sh.h
  let chunkWidth ← shlInt 1 sh.stretch
  let factor ← shlInt 1 (wrapInt (chunkWidth - sh.stretch))
  pure (wrapInt (baseSize * factor))

/-- Go `func (sh *stretchyHash) BlockSize() int`. -/
def stretchyHash.BlockSize {σ : Type} (sh : stretchyHash σ) : Int :=
  sh.methods.BlockSize sh.h

/-- A base hash to run the code on: it keeps the bytes written, and its digest is `size`
copies of their sum (modulo 256). -/
def sampleHash (size : Nat) : CryptoHash (List Byte) where
  methods :=
    { Write := fun st b => (st ++ b, (b.length : Int), none)
      Sum := fun st b => (st, b ++ List.replicate size st.sum)
      Reset := fun _ => []
      Size := fun _ => (size : Int)
      BlockSize := fun _ => 64 }
  New := []

/-- A call of one of the five methods of the digest object. -/
inductive Call where
  | Write (b : List Byte)
  | Sum (b : List Byte)
  | Reset
  | Size
  | BlockSize

/-- The object after a call: what the call leaves in the fields of its receiver, also when
the call panics. `Sum` has called the base hash's `Sum(nil)` before `stretch` runs;
`Size` and `BlockSize` only read. -/
def stretchyHash.after {σ : Type} (sh : stretchyHash σ) : Call → stretchyHash σ
  | .Write b => (sh.Write b).1
  | .Sum _ => { sh with h := (sh.methods.Sum sh.h []).1 }
  | .Reset => sh.Reset
  | .Size => sh
  | .BlockSize => sh

/-- The object after a sequence of calls. -/
def stretchyHash.afterAll {σ : Type} (sh : stretchyHash σ) : List Call → stretchyHash σ
  | [] => sh
  | c :: cs => (sh.after c).afterAll cs

/-! ## Definitions for the proofs -/

/-- The eight bits the inner loop of `toBits` writes for the byte `b`, in order. -/
def byteBits (b : Byte) : List Bool :=
  (List.range' 0 8).map (fun k : Nat => (b &&& shlByte (k : Int)) != 0)

/-- The bits of a byte sequence, byte after byte. -/
def bitList : List Byte → List Bool
  | [] => []
  | b :: rest => byteBits b ++ bitList rest

/-- What the loop of `fromBits` makes of the byte `z` over the bits `bs`, which stand at
positions `j`, `j+1`, ... of that byte. -/
def accBits : List Bool → Nat → Byte → Byte
  | [], _, z => z
  | b :: bs, j, z => accBits bs (j + 1) (if b then z + shlByte (j : Int) else z)

/-- The bytes of `8 * n` bits, eight bits a byte. -/
def packBits : Nat → List Bool → List Byte
  | 0, _ => []
  | n + 1, bits => accBits (bits.take 8) 0 0 :: packBits n (bits.drop 8)

/-! ## Running a computation -/

@[simp] theorem Run.ok_bind {α β : Type} (a : α) (f : α → Run β) :
    (Run.ok a >>= f) = f a := rfl

@[simp] theorem Run.panic_bind {α β : Type} (p : Panic) (f : α → Run β) :
    ((Run.panic p : Run α) >>= f) = Run.panic p := rfl

@[simp] theorem Run.pure_eq {α : Type} (a : α) : (pure a : Run α) = Run.ok a := rfl

theorem wrapInt_of_fits (x : Int) (hlo : -9223372036854775808 ≤ x)
    (hhi : x ≤ 9223372036854775807) : wrapInt x = x := by
  unfold wrapInt
  omega

theorem index_natCast {α : Type} (xs : List α) (n : Nat) :
    index xs (n : Int) =
      match xs[n]? with
      | some x => .ok x
      | none => .panic .indexOutOfRange := by
  unfold index
  have h : ¬ ((n : Int) < 0) := by omega
  simp [h]

theorem assign_natCast {α : Type} (xs : List α) (n : Nat) (v : α) :
    assign xs (n : Int) v =
      if n < xs.length then .ok (xs.set n v) else .panic .indexOutOfRange := by
  unfold assign
  have h : ¬ ((n : Int) < 0) := by omega
  simp [h]

/-! ## The loops of the codec -/

theorem toBitsByte_run (i : Int) (b : Byte) :
    ∀ (n j : Nat) (pre mid post : List Bool), (pre.length : Int) = 8 * i + j → mid.length = n →
      toBitsByte i b n j (pre ++ mid ++ post) =
        .ok (pre ++ (List.range' j n).map (fun k : Nat => (b &&& shlByte (k : Int)) != 0) ++ post) := by
  intro n
  induction n with
  | zero =>
      intro j pre mid post _ hmid
      have : mid = [] := List.length_eq_zero.mp hmid
      subst this
      simp [toBitsByte]
  | succ n ih =>
      intro j pre mid post hpre hmid
      match mid, hmid with
      | a :: mid, hmid =>
        have hlen : mid.length = n := by simpa using hmid
        have hidx : 8 * i + (j : Int) = (pre.length : Int) := hpre.symm
        have hnext : ((pre ++ [(b &&& shlByte (j : Int)) != 0]).length : Int) = 8 * i + ((j + 1 : Nat) : Int) := by
          simp; omega
        have := ih (j + 1) (pre ++ [(b &&& shlByte (j : Int)) != 0]) mid post hnext hlen
        simp only [toBitsByte, hidx, assign_natCast]
        simp [List.range'_succ]
        simpa using this


theorem byteBits_length (b : Byte) : (byteBits b).length = 8 := by
  simp [byteBits]

theorem bitList_length (bytes : List Byte) : (bitList bytes).length = 8 * bytes.length := by
  induction bytes with
  | nil => rfl
  | cons b rest ih => simp [bitList, byteBits_length, ih]; omega

theorem toBitsLoop_run :
    ∀ (bytes : List Byte) (m : Nat) (pre post : List Bool), pre.length = 8 * m →
      post.length = 8 * bytes.length →
      toBitsLoop bytes (m : Int) (pre ++ post) = .ok (pre ++ bitList bytes) := by
  intro bytes
  induction bytes with
  | nil =>
      intro m pre post _ hpost
      have : post = [] := List.length_eq_zero.mp (by simpa using hpost)
      subst this
      simp [toBitsLoop, bitList]
  | cons b rest ih =>
      intro m pre post hpre hpost
      obtain ⟨mid, tail, rfl, htake, hdrop⟩ :
          ∃ mid tail : List Bool, post = mid ++ tail ∧ mid.length = 8 ∧
            tail.length = 8 * rest.length := by
        refine ⟨post.take 8, post.drop 8, (List.take_append_drop 8 post).symm, ?_, ?_⟩
        · simp [List.length_take, hpost]
        · simp [List.length_drop, hpost]; omega
      have hbyte : toBitsByte (m : Int) b 8 0 (pre ++ (mid ++ tail))
          = .ok (pre ++ byteBits b ++ tail) := by
        have h := toBitsByte_run (m : Int) b 8 0 pre mid tail (by simp [hpre]) htake
        simpa [byteBits] using h
      have hnext := ih (m + 1) (pre ++ byteBits b) tail
        (by simp [hpre, byteBits_length]; omega) hdrop
      have hcast : ((m : Int) + 1) = ((m + 1 : Nat) : Int) := by push_cast; rfl
      simp only [toBitsLoop, hbyte, Run.ok_bind, hcast]
      simpa [bitList] using hnext

theorem toBits_eq (bytes : List Byte) : toBits bytes = .ok (bitList bytes) := by
  have h := toBitsLoop_run bytes 0 [] (List.replicate (8 * bytes.length) false) rfl (by simp)
  have hmake : make ((bytes.length : Int) * 8) false
      = .ok (List.replicate (8 * bytes.length) false) := by
    have hn : ¬ ((bytes.length : Int) * 8 < 0) := by omega
    have ht : ((bytes.length : Int) * 8).toNat = 8 * bytes.length := by omega
    simp [make, hn, ht]
  simpa [toBits, hmake] using h


theorem packBits_length (n : Nat) : ∀ bits : List Bool, (packBits n bits).length = n := by
  induction n with
  | zero => intro bits; rfl
  | succ n ih => intro bits; simp [packBits, ih]

theorem fromBitsLoop_byte (rest : List Bool) (pre post : List Byte) :
    ∀ (bs : List Bool) (j : Nat) (z : Byte), j + bs.length ≤ 8 →
      fromBitsLoop (bs ++ rest) (8 * (pre.length : Int) + j) (pre ++ z :: post) =
        fromBitsLoop rest (8 * (pre.length : Int) + j + bs.length)
          (pre ++ accBits bs j z :: post) := by
  intro bs
  induction bs with
  | nil => intro j z _; simp [accBits]
  | cons b bs ih =>
      intro j z hj
      have hj8 : j < 8 := by simp at hj; omega
      have hdiv : (8 * (pre.length : Int) + j) / 8 = (pre.length : Int) := by omega
      have hmod : (8 * (pre.length : Int) + j) % 8 = (j : Int) := by omega
      have hnext := ih (j + 1) (if b then z + shlByte (j : Int) else z) (by simp at hj; omega)
      have hcount : 8 * (pre.length : Int) + j + ((b :: bs).length : Nat)
          = 8 * (pre.length : Int) + ((j + 1 : Nat) : Int) + (bs.length : Nat) := by
        simp; omega
      have hstep : 8 * (pre.length : Int) + j + 1
          = 8 * (pre.length : Int) + ((j + 1 : Nat) : Int) := by
        push_cast; omega
      have hacc : accBits (b :: bs) j z
          = accBits bs (j + 1) (if b then z + shlByte (j : Int) else z) := rfl
      rw [hcount, hacc, ← hnext]
      have hidx : index (pre ++ z :: post) (pre.length : Int) = .ok z := by
        have hq : (pre ++ z :: post)[pre.length]? = some z := by
          rw [List.getElem?_append_right (Nat.le_refl _)]; simp
        rw [index_natCast, hq]
      have hasg : ∀ v : Byte,
          assign (pre ++ z :: post) (pre.length : Int) v = .ok (pre ++ v :: post) := by
        intro v; rw [assign_natCast]; simp
      cases b
      · simp [fromBitsLoop, hstep]
      · simp [fromBitsLoop, hdiv, hmod, hidx, hasg, hstep]

theorem fromBitsLoop_run :
    ∀ (n : Nat) (bits : List Bool) (pre : List Byte), bits.length = 8 * n →
      fromBitsLoop bits (8 * (pre.length : Int)) (pre ++ List.replicate n 0) =
        .ok (pre ++ packBits n bits) := by
  intro n
  induction n with
  | zero =>
      intro bits pre hbits
      have : bits = [] := List.length_eq_zero.mp (by simpa using hbits)
      subst this
      simp [fromBitsLoop, packBits]
  | succ n ih =>
      intro bits pre hbits
      obtain ⟨mid, tail, rfl, hmid, htail⟩ :
          ∃ mid tail : List Bool, bits = mid ++ tail ∧ mid.length = 8 ∧
            tail.length = 8 * n := by
        refine ⟨bits.take 8, bits.drop 8, (List.take_append_drop 8 bits).symm, ?_, ?_⟩
        · simp [List.length_take, hbits]
        · simp [List.length_drop, hbits]; omega
      have hbyte := fromBitsLoop_byte tail pre (List.replicate n 0) mid 0 0 (by omega)
      have hnext := ih tail (pre ++ [accBits mid 0 0]) htail
      have hcount : 8 * (pre.length : Int) + ((0 : Nat) : Int) + (mid.length : Nat)
          = 8 * ((pre ++ [accBits mid 0 0]).length : Int) := by
        simp [hmid]; omega
      rw [hcount] at hbyte
      have htk : (mid ++ tail).take 8 = mid := by simp [← hmid]
      have hdr : (mid ++ tail).drop 8 = tail := by simp [← hmid]
      simp only [List.replicate_succ, packBits, htk, hdr]
      simp only [Nat.cast_zero, add_zero] at hbyte
      rw [hbyte]
      simpa using hnext

theorem fromBits_eq (n : Nat) (bits : List Bool) (hbits : bits.length = 8 * n) :
    fromBits bits = .ok (packBits n bits) := by
  have h := fromBitsLoop_run n bits [] hbits
  have hmake : make ((bits.length : Int) / 8) (0 : Byte) = .ok (List.replicate n 0) := by
    have hn : ¬ ((bits.length : Int) / 8 < 0) := by omega
    have ht : ((bits.length : Int) / 8).toNat = n := by omega
    simp [make, hn, ht]
  simpa [fromBits, hmake] using h


set_option maxRecDepth 100000 in
theorem accBits_byteBits : ∀ b : Byte, accBits (byteBits b) 0 0 = b := by
  decide

set_option maxRecDepth 100000 in
theorem byteBits_eq_shift : ∀ b : Byte,
    byteBits b = (List.range 8).map (fun j => decide ((b.val >>> j) &&& 1 = 1)) := by
  decide

theorem packBits_bitList (data : List Byte) : packBits data.length (bitList data) = data := by
  induction data with
  | nil => rfl
  | cons b rest ih =>
      have htk : (byteBits b ++ bitList rest).take 8 = byteBits b := by
        simp [← byteBits_length b]
      have hdr : (byteBits b ++ bitList rest).drop 8 = bitList rest := by
        simp [← byteBits_length b]
      simp only [List.length_cons, bitList, packBits, htk, hdr, accBits_byteBits, ih]

theorem bitList_getElem? : ∀ (data : List Byte) (i j : Nat) (hi : i < data.length), j < 8 →
    (bitList data)[8 * i + j]? = some (decide ((data[i].val >>> j) &&& 1 = 1)) := by
  intro data
  induction data with
  | nil => intro i j hi; simp at hi
  | cons b rest ih =>
      intro i j hi hj
      cases i with
      | zero =>
          have hlt : 8 * 0 + j < (byteBits b).length := by rw [byteBits_length]; omega
          simp only [bitList, List.getElem?_append_left hlt]
          simp [byteBits_eq_shift, List.getElem?_map, List.getElem?_range, hj]
      | succ i =>
          have hge : (byteBits b).length ≤ 8 * (i + 1) + j := by rw [byteBits_length]; omega
          have hsub : 8 * (i + 1) + j - (byteBits b).length = 8 * i + j := by
            rw [byteBits_length]; omega
          simp only [bitList, List.getElem?_append_right hge, hsub]
          simpa using ih i j (by simpa using hi) hj

theorem packBits_getElem? : ∀ (n : Nat) (bits : List Bool) (i : Nat), i < n →
    (packBits n bits)[i]? = some (accBits ((bits.drop (8 * i)).take 8) 0 0) := by
  intro n
  induction n with
  | zero => intro bits i hi; omega
  | succ n ih =>
      intro bits i hi
      cases i with
      | zero => simp [packBits]
      | succ i =>
          have h := ih (bits.drop 8) i (by omega)
          have hd : 8 + 8 * i = 8 * (i + 1) := by omega
          simpa [packBits, List.drop_drop, hd] using h

theorem eight_bits (l : List Bool) (h : 8 ≤ l.length) :
    ∃ c0 c1 c2 c3 c4 c5 c6 c7 rest, l = c0 :: c1 :: c2 :: c3 :: c4 :: c5 :: c6 :: c7 :: rest := by
  match l, h with
  | c0 :: c1 :: c2 :: c3 :: c4 :: c5 :: c6 :: c7 :: rest, _ =>
      exact ⟨c0, c1, c2, c3, c4, c5, c6, c7, rest, rfl⟩


set_option maxRecDepth 100000 in
theorem accBits_eight : ∀ c0 c1 c2 c3 c4 c5 c6 c7 : Bool,
    (accBits [c0, c1, c2, c3, c4, c5, c6, c7] 0 0).val = (List.range 8).foldl
      (fun acc j => if [c0, c1, c2, c3, c4, c5, c6, c7][j]?.getD false
        then acc ||| (1 <<< j) else acc) 0 ∧
    (accBits [c0, c1, c2, c3, c4, c5, c6, c7] 0 0).val = ((List.range 8).map
      (fun j => if [c0, c1, c2, c3, c4, c5, c6, c7][j]?.getD false then 2 ^ j else 0)).sum := by
  decide

theorem eight_getElem? (c0 c1 c2 c3 c4 c5 c6 c7 : Bool) (rest : List Bool) (j : Nat)
    (hj : j ∈ List.range 8) :
    (c0 :: c1 :: c2 :: c3 :: c4 :: c5 :: c6 :: c7 :: rest)[j]?
      = [c0, c1, c2, c3, c4, c5, c6, c7][j]? := by
  have h8 : j < 8 := List.mem_range.mp hj
  have hsplit : c0 :: c1 :: c2 :: c3 :: c4 :: c5 :: c6 :: c7 :: rest
      = [c0, c1, c2, c3, c4, c5, c6, c7] ++ rest := rfl
  rw [hsplit, List.getElem?_append_left (by simpa using h8)]

/-! ## The constructor and the size -/

/-- C1. For a stretch factor in 1..4 and a base hash whose `Size()` is `S`, the object
that `New` returns reports, before anything is written, `Size() = S * 2^(2^stretch -
stretch)`, as long as that number is a Go `int`; for `S = 32` this is 64, 128, 1024 and
131072 at stretch 1, 2, 3 and 4. -/
theorem New_Size {σ : Type} (h : CryptoHash σ) (stretch S : Int)
    (hlo : 1 ≤ stretch) (hhi : stretch ≤ 4) (hS : h.methods.Size h.New = S)
    (hmin : -9223372036854775808 ≤ S * 2 ^ (2 ^ stretch.toNat - stretch.toNat))
    (hmax : S * 2 ^ (2 ^ stretch.toNat - stretch.toNat) ≤ 9223372036854775807) :
    ∃ sh : stretchyHash σ, New h stretch = (some sh, none) ∧ sh.h = h.New ∧
      sh.Size = .ok (S * 2 ^ (2 ^ stretch.toNat - stretch.toNat)) ∧
      (S = 32 → sh.Size = .ok (if stretch = 1 then 64 else if stretch = 2 then 128
        else if stretch = 3 then 1024 else 131072)) := by
  have hcases : stretch = 1 ∨ stretch = 2 ∨ stretch = 3 ∨ stretch = 4 := by omega
  refine ⟨{ methods := h.methods, h := h.New, stretch := stretch }, ?_, rfl, ?_, ?_⟩
  · rcases hcases with rfl | rfl | rfl | rfl <;> simp [New, stretchLimit]
  · rcases hcases with rfl | rfl | rfl | rfl <;>
      simp [stretchyHash.Size, shlInt, wrapInt, hS] at hmin hmax ⊢ <;> omega
  · rintro rfl
    rcases hcases with rfl | rfl | rfl | rfl <;>
      simp [stretchyHash.Size, shlInt, wrapInt, hS]

/-- Witness of C1: the sample base hash of 32 bytes, at each of the four stretch factors. -/
theorem New_Size_witness :
    (∃ sh : stretchyHash (List Byte), New (sampleHash 32) 1 = (some sh, none) ∧
      sh.Size = .ok 64) ∧
    (∃ sh : stretchyHash (List Byte), New (sampleHash 32) 2 = (some sh, none) ∧
      sh.Size = .ok 128) ∧
    (∃ sh : stretchyHash (List Byte), New (sampleHash 32) 3 = (some sh, none) ∧
      sh.Size = .ok 1024) ∧
    (∃ sh : stretchyHash (List Byte), New (sampleHash 32) 4 = (some sh, none) ∧
      sh.Size = .ok 131072) := by
  refine ⟨?_, ?_, ?_, ?_⟩
  · obtain ⟨sh, h1, _, _, h4⟩ :=
      New_Size (sampleHash 32) 1 32 (by decide) (by decide) rfl (by decide) (by decide)
    exact ⟨sh, h1, by simpa using h4 rfl⟩
  · obtain ⟨sh, h1, _, _, h4⟩ :=
      New_Size (sampleHash 32) 2 32 (by decide) (by decide) rfl (by decide) (by decide)
    exact ⟨sh, h1, by simpa using h4 rfl⟩
  · obtain ⟨sh, h1, _, _, h4⟩ :=
      New_Size (sampleHash 32) 3 32 (by decide) (by decide) rfl (by decide) (by decide)
    exact ⟨sh, h1, by simpa using h4 rfl⟩
  · obtain ⟨sh, h1, _, _, h4⟩ :=
      New_Size (sampleHash 32) 4 32 (by decide) (by decide) rfl (by decide) (by decide)
    exact ⟨sh, h1, by simpa using h4 rfl⟩

/-- C2. `New` returns an error exactly when `stretch < 1` or `stretch > 4`; with an error
the hash it returns is nil; for `1 ≤ stretch ≤ 4` it returns an object (over a fresh base
hash, with that stretch factor) and a nil error. -/
theorem New_error_iff {σ : Type} (h : CryptoHash σ) (stretch : Int) :
    ((New h stretch).2.isSome = true ↔ (stretch < 1 ∨ stretch > 4)) ∧
    ((New h stretch).2.isSome = true → (New h stretch).1 = none) ∧
    (1 ≤ stretch ∧ stretch ≤ 4 →
      New h stretch = (some { methods := h.methods, h := h.New, stretch := stretch }, none)) := by
  unfold New stretchLimit
  by_cases h1 : stretch < 1
  · simp [h1]
  · by_cases h2 : stretch > 4
    · simp [h1, h2]
    · simp [h1, h2]

/-! ## The transform on its inputs -/

/-- C3, at the input `data = [0x00]`: the claimed lengths are 2, 4 and 32 bytes for stretch
1, 2 and 3, and `stretch` returns nothing: its second pass, at `i = chunkWidth`, reads
`bits[8*i]`, past the 8 bits of the input. -/
theorem stretch_one_byte_panics :
    stretch [0] 1 = .panic .indexOutOfRange ∧
    stretch [0] 2 = .panic .indexOutOfRange ∧
    stretch [0] 3 = .panic .indexOutOfRange := by
  refine ⟨by decide, by decide, ?_⟩
  set_option maxRecDepth 100000 in decide

/-- C4, at the inputs `[0x1b]` (chunks 3, 2, 1, 0 at stretch 1) and `[0x1b, 0xe4]`:
no block is returned at all, `stretch` panics. -/
theorem stretch_blocks_panics :
    stretch [27] 1 = .panic .indexOutOfRange ∧
    stretch [27, 228] 1 = .panic .indexOutOfRange ∧
    stretch [27, 228] 2 = .panic .indexOutOfRange := by
  refine ⟨by decide, ?_, ?_⟩
  · set_option maxRecDepth 100000 in decide
  · set_option maxRecDepth 100000 in decide

/-- C5, at the sample base hash of 32 bytes, stretch 1 and the empty prefix: the base
digest has `Size() = 32` bytes, the object reports `Size() = 64`, and `Sum(nil)` panics
instead of returning 64 bytes. The bytes of the digest do not matter: on the SHA-256
digest of the empty input `stretch` panics as well. -/
theorem Sum_sample_panics :
    (∃ sh : stretchyHash (List Byte), New (sampleHash 32) 1 = (some sh, none) ∧
      ((sh.methods.Sum sh.h []).2.length : Int) = sh.methods.Size sh.h ∧
      sh.Size = .ok 64 ∧
      (sh.Sum [] >>= fun r => pure r.2) = .panic .indexOutOfRange) ∧
    stretch [0xe3, 0xb0, 0xc4, 0x42, 0x98, 0xfc, 0x1c, 0x14, 0x9a, 0xfb, 0xf4, 0xc8,
      0x99, 0x6f, 0xb9, 0x24, 0x27, 0xae, 0x41, 0xe4, 0x64, 0x9b, 0x93, 0x4c, 0xa4, 0x95,
      0x99, 0x1b, 0x78, 0x52, 0xb8, 0x55] 1 = .panic .indexOutOfRange := by
  refine ⟨⟨{ methods := (sampleHash 32).methods, h := (sampleHash 32).New, stretch := 1 },
    rfl, by decide, by decide, ?_⟩, ?_⟩
  · set_option maxRecDepth 100000 in decide
  · set_option maxRecDepth 100000 in decide

/-! ## The bit-array codec -/

/-- C8. For every byte sequence, `fromBits(toBits(data)) = data`: both calls return, and
the bytes that come back are the bytes that went in. -/
theorem fromBits_toBits (data : List Byte) : (toBits data >>= fromBits) = .ok data := by
  rw [toBits_eq, Run.ok_bind, fromBits_eq data.length (bitList data) (bitList_length data),
    packBits_bitList]

/-- C9. For every byte sequence, `toBits` returns `8 * len(data)` bits, and the bit at
index `8*i + j`, for a byte index `i` and `j` in 0..7, is true exactly when
`(data[i] >> j) & 1 = 1`. -/
theorem toBits_bits (data : List Byte) :
    ∃ bits : List Bool, toBits data = .ok bits ∧ bits.length = 8 * data.length ∧
      ∀ (i j : Nat) (hi : i < data.length), j < 8 →
        bits[8 * i + j]? = some (decide ((data[i].val >>> j) &&& 1 = 1)) :=
  ⟨bitList data, toBits_eq data, bitList_length data, bitList_getElem? data⟩

/-- C10. For bits whose number is a multiple of 8, `fromBits` returns `len(bits)/8` bytes,
and byte `i` is the bitwise OR of `1 << j` over the `j` in 0..7 whose bit `8*i + j` is
true; it is also their plain sum, so that no addition of the loop carries or wraps. -/
theorem fromBits_bytes (bits : List Bool) (h : bits.length % 8 = 0) :
    ∃ out : List Byte, fromBits bits = .ok out ∧ out.length = bits.length / 8 ∧
      ∀ (i : Nat) (hi : i < out.length),
        out[i].val = (List.range 8).foldl
          (fun acc j => if bits[8 * i + j]?.getD false then acc ||| (1 <<< j) else acc) 0 ∧
        out[i].val = ((List.range 8).map
          (fun j => if bits[8 * i + j]?.getD false then 2 ^ j else 0)).sum := by
  have hlen : bits.length = 8 * (bits.length / 8) := by omega
  refine ⟨packBits (bits.length / 8) bits, fromBits_eq _ bits hlen, packBits_length _ _, ?_⟩
  intro i hi
  rw [packBits_length] at hi
  have hget := packBits_getElem? (bits.length / 8) bits i hi
  obtain ⟨c0, c1, c2, c3, c4, c5, c6, c7, rest, hl⟩ :=
    eight_bits (bits.drop (8 * i)) (by simp [List.length_drop]; omega)
  have hj : ∀ j ∈ List.range 8, bits[8 * i + j]? = [c0, c1, c2, c3, c4, c5, c6, c7][j]? := by
    intro j hjr
    rw [← eight_getElem? c0 c1 c2 c3 c4 c5 c6 c7 rest j hjr, ← hl, List.getElem?_drop]
  rw [hl] at hget
  have hval : (packBits (bits.length / 8) bits)[i]
      = accBits [c0, c1, c2, c3, c4, c5, c6, c7] 0 0 := by
    have := List.getElem?_eq_getElem (l := packBits (bits.length / 8) bits) (n := i)
      (by rw [packBits_length]; exact hi)
    rw [this] at hget
    simpa using hget
  have hfold : (List.range 8).foldl
        (fun acc j => if bits[8 * i + j]?.getD false then acc ||| (1 <<< j) else acc) 0
      = (List.range 8).foldl (fun acc j => if [c0, c1, c2, c3, c4, c5, c6, c7][j]?.getD false
        then acc ||| (1 <<< j) else acc) 0 :=
    List.foldl_ext _ _ _ (fun acc j hjr => by rw [hj j hjr])
  have hmap : (List.range 8).map
        (fun j => if bits[8 * i + j]?.getD false then 2 ^ j else 0)
      = (List.range 8).map
        (fun j => if [c0, c1, c2, c3, c4, c5, c6, c7][j]?.getD false then 2 ^ j else 0) :=
    List.map_congr_left (fun j hjr => by rw [hj j hjr])
  rw [hval, hfold, hmap]
  exact accBits_eight c0 c1 c2 c3 c4 c5 c6 c7

/-- Witness of C10: sixteen bits, the bytes `0x05` and `0xff`. -/
theorem fromBits_bytes_witness :
    [true, false, true, false, false, false, false, false,
      true, true, true, true, true, true, true, true].length % 8 = 0 ∧
    ∃ out : List Byte,
      fromBits [true, false, true, false, false, false, false, false,
        true, true, true, true, true, true, true, true] = .ok out ∧ out = [5, 255] := by
  refine ⟨by decide, ?_⟩
  obtain ⟨out, hout, -, -⟩ := fromBits_bytes
    [true, false, true, false, false, false, false, false,
      true, true, true, true, true, true, true, true] (by decide)
  refine ⟨out, hout, ?_⟩
  have h : fromBits [true, false, true, false, false, false, false, false,
      true, true, true, true, true, true, true, true] = .ok [5, 255] := by decide
  rw [h] at hout
  cases hout
  rfl

/-! ## The loop of the transform -/

theorem index_cases {α : Type} (xs : List α) (k : Int) :
    index xs k = .panic .indexOutOfRange ∨
      ∃ x, index xs k = .ok x ∧ 0 ≤ k ∧ k < xs.length := by
  unfold index
  by_cases hk : k < 0
  · simp [hk]
  · cases hx : xs[k.toNat]? with
    | none => simp [hk]
    | some x =>
        right
        have hlt : k.toNat < xs.length := by
          by_contra hge
          rw [List.getElem?_eq_none (by omega)] at hx
          cases hx
        refine ⟨x, by simp [hk], by omega, by omega⟩

theorem assign_cases {α : Type} (xs : List α) (k : Int) (v : α) :
    assign xs k v = .panic .indexOutOfRange ∨
      ∃ ys, assign xs k v = .ok ys ∧ ys.length = xs.length := by
  unfold assign
  by_cases hk : k < 0
  · simp [hk]
  · by_cases hlt : k.toNat < xs.length
    · right
      exact ⟨xs.set k.toNat v, by simp [hk, hlt], by simp⟩
    · simp [hk, hlt]

theorem shlInt_one_ok (j : Int) (hj : 0 ≤ j) : ∃ v, shlInt 1 j = .ok v := by
  unfold shlInt
  have h : ¬ (j < 0) := by omega
  by_cases h64 : 64 ≤ j
  · exact ⟨0, by simp [h, h64]⟩
  · exact ⟨wrapInt (1 * 2 ^ j.toNat), by simp [h, h64]⟩

theorem stretchChunk_cases (bits : List Bool) (i : Int) :
    ∀ (n j : Nat) (chunk : Int),
      stretchChunk bits i n (j : Int) chunk = .panic .indexOutOfRange ∨
        ((∃ c, stretchChunk bits i n (j : Int) chunk = .ok c) ∧
          (n = 0 ∨ 8 * i + j + n ≤ bits.length)) := by
  intro n
  induction n with
  | zero =>
      intro j chunk
      exact Or.inr ⟨⟨chunk, rfl⟩, Or.inl rfl⟩
  | succ n ih =>
      intro j chunk
      have hcast : (j : Int) + 1 = ((j + 1 : Nat) : Int) := by push_cast; rfl
      rcases index_cases bits (8 * i + j) with hp | ⟨bit, hb, -, hlt⟩
      · left
        simp [stretchChunk, hp]
      · obtain ⟨one, hone⟩ := shlInt_one_ok (j : Int) (by omega)
        have hstep : stretchChunk bits i (n + 1) (j : Int) chunk
            = stretchChunk bits i n ((j + 1 : Nat) : Int)
                (if bit then wrapInt (chunk + one) else chunk) := by
          rw [stretchChunk]
          simp only [hb, Run.ok_bind]
          cases bit
          · simp only [Bool.false_eq_true, if_false, Run.pure_eq, Run.ok_bind, hcast]
          · simp only [if_true, hone, Run.ok_bind, Run.pure_eq, hcast]
        rw [hstep]
        rcases ih (j + 1) (if bit then wrapInt (chunk + one) else chunk) with hp | ⟨hc, hlen⟩
        · exact Or.inl hp
        · refine Or.inr ⟨hc, Or.inr ?_⟩
          rcases hlen with rfl | hlen
          · simp; omega
          · push_cast at hlen ⊢; omega

theorem stretchLoop_panics (bits : List Bool) (w : Int) (N : Nat) (hw : 1 ≤ w)
    (hN : ∀ i : Int, 0 ≤ i → 8 * i < bits.length + 8 * w → i < N) :
    ∀ (fuel : Nat) (i : Int) (resultBits : List Bool), resultBits.length = N → 0 ≤ i →
      8 * i < bits.length + 8 * w → (N : Int) ≤ fuel + i →
      stretchLoop bits w fuel i resultBits = .panic .indexOutOfRange := by
  intro fuel
  induction fuel with
  | zero =>
      intro i rb _ hi h8 hfuel
      have := hN i hi h8
      simp at hfuel
      omega
  | succ fuel ih =>
      intro i rb hrb hi h8 hfuel
      have hlt : i < (rb.length : Int) := by rw [hrb]; exact hN i hi h8
      have hwn : w.toNat ≠ 0 := by omega
      rcases stretchChunk_cases bits i w.toNat 0 0 with hp | ⟨⟨c, hc⟩, hlen⟩
      · simp only [Nat.cast_zero] at hp
        simp [stretchLoop, hlt, stretchPass, hp]
      · simp only [Nat.cast_zero] at hc
        rcases assign_cases rb (i * w + c) true with hp | ⟨rb2, hrb2, hlen2⟩
        · simp [stretchLoop, hlt, stretchPass, hc, hp]
        · have hread : 8 * i + w ≤ bits.length := by
            rcases hlen with h0 | h1
            · exact absurd h0 hwn
            · have : ((w.toNat : Nat) : Int) = w := by omega
              push_cast at h1
              omega
          have hnext := ih (i + w) rb2 (by rw [hlen2, hrb]) (by omega) (by omega)
            (by push_cast at hfuel ⊢; omega)
          simp [stretchLoop, hlt, stretchPass, hc, hrb2, hnext]

theorem stretchInit_eq (data : List Byte) (s : Int) (hlo : 1 ≤ s) (hhi : s ≤ 4) :
    stretchInit data s = .ok (bitList data, 2 ^ s.toNat,
      List.replicate (8 * data.length * 2 ^ (2 ^ s.toNat - s.toNat)) false) := by
  have hcases : s = 1 ∨ s = 2 ∨ s = 3 ∨ s = 4 := by omega
  have hmake : ∀ f : Nat, make (((bitList data).length : Int) * (f : Int)) false
      = .ok (List.replicate (8 * data.length * f) false) := by
    intro f
    have hn : ¬ (((bitList data).length : Int) * (f : Int) < 0) :=
      not_lt.mpr (mul_nonneg (Nat.cast_nonneg _) (Nat.cast_nonneg _))
    have ht : (((bitList data).length : Int) * (f : Int)).toNat = 8 * data.length * f := by
      rw [bitList_length]
      have : ((8 * data.length : Nat) : Int) * (f : Int) = ((8 * data.length * f : Nat) : Int) := by
        push_cast; ring
      rw [this, Int.toNat_ofNat]
    simp [make, hn, ht]
  rcases hcases with rfl | rfl | rfl | rfl
  · have hm := hmake 2
    simp only [Nat.cast_ofNat] at hm
    simp [stretchInit, toBits_eq, shlInt, wrapInt, hm]
  · have hm := hmake 4
    simp only [Nat.cast_ofNat] at hm
    simp [stretchInit, toBits_eq, shlInt, wrapInt, hm]
  · have hm := hmake 32
    simp only [Nat.cast_ofNat] at hm
    simp [stretchInit, toBits_eq, shlInt, wrapInt, hm]
  · have hm := hmake 4096
    simp only [Nat.cast_ofNat] at hm
    simp [stretchInit, toBits_eq, shlInt, wrapInt, hm]

theorem stretch_nonempty_panics (data : List Byte) (s : Int) (hlo : 1 ≤ s) (hhi : s ≤ 4)
    (hne : data ≠ []) : stretch data s = .panic .indexOutOfRange := by
  have hB : 1 ≤ data.length := by
    cases data with
    | nil => exact absurd rfl hne
    | cons b rest => simp
  have hL := bitList_length data
  have hcases : s = 1 ∨ s = 2 ∨ s = 3 ∨ s = 4 := by omega
  have hloop : stretchLoop (bitList data) (2 ^ s.toNat)
      (List.replicate (8 * data.length * 2 ^ (2 ^ s.toNat - s.toNat)) false).length 0
      (List.replicate (8 * data.length * 2 ^ (2 ^ s.toNat - s.toNat)) false)
        = .panic .indexOutOfRange := by
    apply stretchLoop_panics (bitList data) (2 ^ s.toNat)
      (8 * data.length * 2 ^ (2 ^ s.toNat - s.toNat))
    · rcases hcases with rfl | rfl | rfl | rfl <;> simp
    · intro i hi h8
      rw [hL] at h8
      rcases hcases with rfl | rfl | rfl | rfl <;> simp at h8 ⊢ <;> omega
    · simp
    · omega
    · rw [hL]
      rcases hcases with rfl | rfl | rfl | rfl <;> simp <;> omega
    · simp
  unfold stretch
  rw [stretchInit_eq data s hlo hhi]
  simp only [Run.ok_bind, hloop, Run.panic_bind]

theorem stretch_nil (s : Int) (hlo : 1 ≤ s) (hhi : s ≤ 4) : stretch [] s = .ok [] := by
  have hcases : s = 1 ∨ s = 2 ∨ s = 3 ∨ s = 4 := by omega
  rcases hcases with rfl | rfl | rfl | rfl <;> decide

/-! ## The loop of `fromBits` past the whole bytes -/

theorem fromBitsLoop_whole :
    ∀ (n : Nat) (bits rest : List Bool) (pre : List Byte), bits.length = 8 * n →
      fromBitsLoop (bits ++ rest) (8 * (pre.length : Int)) (pre ++ List.replicate n 0) =
        fromBitsLoop rest (8 * ((pre ++ packBits n bits).length : Int))
          (pre ++ packBits n bits) := by
  intro n
  induction n with
  | zero =>
      intro bits rest pre hbits
      have : bits = [] := List.length_eq_zero.mp (by simpa using hbits)
      subst this
      simp [packBits]
  | succ n ih =>
      intro bits rest pre hbits
      obtain ⟨mid, tail, rfl, hmid, htail⟩ :
          ∃ mid tail : List Bool, bits = mid ++ tail ∧ mid.length = 8 ∧
            tail.length = 8 * n := by
        refine ⟨bits.take 8, bits.drop 8, (List.take_append_drop 8 bits).symm, ?_, ?_⟩
        · simp [List.length_take, hbits]
        · simp [List.length_drop, hbits]; omega
      have hbyte := fromBitsLoop_byte (tail ++ rest) pre (List.replicate n 0) mid 0 0 (by omega)
      have hnext := ih tail rest (pre ++ [accBits mid 0 0]) htail
      have hcount : 8 * (pre.length : Int) + ((0 : Nat) : Int) + (mid.length : Nat)
          = 8 * ((pre ++ [accBits mid 0 0]).length : Int) := by
        simp [hmid]; omega
      rw [hcount] at hbyte
      have htk : (mid ++ tail).take 8 = mid := by simp [← hmid]
      have hdr : (mid ++ tail).drop 8 = tail := by simp [← hmid]
      simp only [List.replicate_succ, packBits, htk, hdr, List.append_assoc]
      simp only [Nat.cast_zero, add_zero] at hbyte
      rw [hbyte]
      simpa using hnext

theorem fromBitsLoop_trailing (result : List Byte) :
    ∀ (trail : List Bool) (j : Nat), j + trail.length ≤ 8 →
      fromBitsLoop trail (8 * (result.length : Int) + j) result =
        if true ∈ trail then .panic .indexOutOfRange else .ok result := by
  intro trail
  induction trail with
  | nil => intro j _; simp [fromBitsLoop]
  | cons b trail ih =>
      intro j hj
      have hj8 : j < 8 := by simp at hj; omega
      have hdiv : (8 * (result.length : Int) + j) / 8 = (result.length : Int) := by omega
      have hstep : 8 * (result.length : Int) + j + 1
          = 8 * (result.length : Int) + ((j + 1 : Nat) : Int) := by
        push_cast; omega
      have hidx : index result (result.length : Int) = .panic .indexOutOfRange := by
        rw [index_natCast]; simp
      have hnext := ih (j + 1) (by simp at hj; omega)
      cases b
      · rw [fromBitsLoop]
        simp only [Bool.false_eq_true, if_false, Run.pure_eq, Run.ok_bind, hstep, hnext]
        simp
      · rw [fromBitsLoop]
        simp [hdiv, hidx]

theorem fromBits_split (bits : List Bool) :
    fromBits bits =
      if true ∈ bits.drop (8 * (bits.length / 8)) then .panic .indexOutOfRange
      else .ok (packBits (bits.length / 8) (bits.take (8 * (bits.length / 8)))) := by
  have hfull : (bits.take (8 * (bits.length / 8))).length = 8 * (bits.length / 8) := by
    simp [List.length_take]; omega
  have htrail : (bits.drop (8 * (bits.length / 8))).length < 8 := by
    simp [List.length_drop]; omega
  have hmake : make ((bits.length : Int) / 8) (0 : Byte)
      = .ok (List.replicate (bits.length / 8) 0) := by
    have hn : ¬ ((bits.length : Int) / 8 < 0) := by omega
    have ht : ((bits.length : Int) / 8).toNat = bits.length / 8 := by omega
    simp [make, hn, ht]
  have hwhole := fromBitsLoop_whole (bits.length / 8) (bits.take (8 * (bits.length / 8)))
    (bits.drop (8 * (bits.length / 8))) [] hfull
  have htr := fromBitsLoop_trailing
    (packBits (bits.length / 8) (bits.take (8 * (bits.length / 8))))
    (bits.drop (8 * (bits.length / 8))) 0 (by omega)
  simp only [List.take_append_drop, List.length_nil, Nat.cast_zero, mul_zero,
    List.nil_append] at hwhole
  simp only [Nat.cast_zero, add_zero] at htr
  unfold fromBits
  rw [hmake, Run.ok_bind, hwhole, htr]

/-! ## The error of the constructor -/

/-- C11. The error of `New` wraps `ErrTooMuchStretch`, and its message carries the value
and the bound: for `stretch < 1` it is `unsupported stretch length: <stretch> (min: 1)`, for
`stretch > 4` it is `unsupported stretch length: <stretch> (max: 4)`; at 0 and at 5 these
are the messages ending in `0 (min: 1)` and `5 (max: 4)`. -/
theorem New_error_message {σ : Type} (h : CryptoHash σ) (stretch : Int) :
    (∀ e, (New h stretch).2 = some e → e.Is ErrTooMuchStretch = true) ∧
    (stretch < 1 → (New h stretch).2.map GoError.Error =
      some ("unsupported stretch length: " ++ toString stretch ++ " (min: 1)")) ∧
    (stretch > 4 → (New h stretch).2.map GoError.Error =
      some ("unsupported stretch length: " ++ toString stretch ++ " (max: 4)")) ∧
    (New h 0).2.map GoError.Error = some "unsupported stretch length: 0 (min: 1)" ∧
    (New h 5).2.map GoError.Error = some "unsupported stretch length: 5 (max: 4)" := by
  have hmsg : ErrTooMuchStretch.Error ++ ": " = "unsupported stretch length: " := by decide
  have hlim : " (max: " ++ toString stretchLimit ++ ")" = " (max: 4)" := by decide
  have hIs : ∀ text, (GoError.errorf text ErrTooMuchStretch).Is ErrTooMuchStretch = true := by
    intro text
    simp [GoError.Is, ErrTooMuchStretch]
  have hmin : ∀ s : Int, s < 1 → (New h s).2.map GoError.Error =
      some ("unsupported stretch length: " ++ toString s ++ " (min: 1)") := by
    intro s h1
    have hE : ∀ text w, (GoError.errorf text w).Error = text := fun _ _ => rfl
    simp only [New, if_pos h1, Option.map, hE, hmsg]
  have hmax : ∀ s : Int, s > 4 → (New h s).2.map GoError.Error =
      some ("unsupported stretch length: " ++ toString s ++ " (max: 4)") := by
    intro s h2
    have h1 : ¬ s < 1 := by omega
    have h3 : s > stretchLimit := by unfold stretchLimit; omega
    have hE : ∀ text w, (GoError.errorf text w).Error = text := fun _ _ => rfl
    simp only [New, if_neg h1, if_pos h3, Option.map, hE, hmsg]
    rw [String.append_assoc _ " (max: " _, String.append_assoc _ (" (max: " ++ _) _, hlim]
  refine ⟨?_, hmin stretch, hmax stretch, ?_, ?_⟩
  · intro e he
    unfold New at he
    by_cases h1 : stretch < 1
    · simp only [if_pos h1, Option.some.injEq] at he
      subst he
      exact hIs _
    · by_cases h2 : stretch > stretchLimit
      · simp only [if_neg h1, if_pos h2, Option.some.injEq] at he
        subst he
        exact hIs _
      · simp [h1, h2] at he
  · have h0 := hmin 0 (by decide)
    have ht : toString (0 : Int) = "0" := by decide
    rw [h0, ht]
    decide
  · have h5 := hmax 5 (by decide)
    have ht : toString (5 : Int) = "5" := by decide
    rw [h5, ht]
    decide

/-! ## The transform on every input -/

/-- C12. For a stretch factor in 1..4 and data whose bit length `8 * len(data)` is not a
multiple of `2^stretch`, `stretch` returns nothing, so no result with the last bits dropped:
it stops with the run-time error `index out of range`. -/
theorem stretch_partial_chunk_panics (data : List Byte) (s : Int) (hlo : 1 ≤ s) (hhi : s ≤ 4)
    (hpart : (8 * data.length) % 2 ^ s.toNat ≠ 0) :
    stretch data s = .panic .indexOutOfRange := by
  apply stretch_nonempty_panics data s hlo hhi
  rintro rfl
  simp at hpart

/-- Witness of C12: one byte at stretch 4, 8 bits against a chunk of 16. -/
theorem stretch_partial_chunk_panics_witness :
    (8 * [(0 : Byte)].length) % 2 ^ (4 : Int).toNat ≠ 0 ∧
    stretch [0] 4 = .panic .indexOutOfRange :=
  ⟨by decide, stretch_partial_chunk_panics [0] 4 (by decide) (by decide) (by decide)⟩

/-- C13, at the inputs `[0x00]` and `[0x01]`, stretch 1: the two inputs differ and `stretch`
does the same on both, it panics; there is no output to tell them apart by. -/
theorem stretch_not_injective :
    stretch [0] 1 = .panic .indexOutOfRange ∧
    stretch [1] 1 = .panic .indexOutOfRange ∧
    stretch [0] 1 = stretch [1] 1 ∧
    ([0] : List Byte) ≠ [1] := by
  refine ⟨by decide, by decide, by decide, by decide⟩

/-- C6, at the object over the sample hash of 32 bytes, stretch 2, written `[1, 2, 3]`, and
the prefix `[9, 9]`: the base digest is 32 bytes, and `Sum` returns neither the prefix nor
anything after it, it panics in `stretch`. -/
theorem Sum_prefix_panics :
    ∃ sh : stretchyHash (List Byte), New (sampleHash 32) 2 = (some sh, none) ∧
      ((sh.Write [1, 2, 3]).1.methods.Sum (sh.Write [1, 2, 3]).1.h []).2
        = List.replicate 32 6 ∧
      stretch (List.replicate 32 6) 2 = .panic .indexOutOfRange ∧
      ((sh.Write [1, 2, 3]).1.Sum [9, 9] >>= fun r => pure r.2)
        = .panic .indexOutOfRange := by
  have hp := stretch_nonempty_panics (List.replicate 32 6) 2 (by decide) (by decide)
    (by decide)
  have hd : (((stretchyHash.mk (sampleHash 32).methods (sampleHash 32).New 2).Write
      [1, 2, 3]).1.methods.Sum
        ((stretchyHash.mk (sampleHash 32).methods (sampleHash 32).New 2).Write [1, 2, 3]).1.h
        []).2 = List.replicate 32 6 := by decide
  refine ⟨{ methods := (sampleHash 32).methods, h := (sampleHash 32).New, stretch := 2 },
    rfl, hd, hp, ?_⟩
  have hs : ((stretchyHash.mk (sampleHash 32).methods (sampleHash 32).New 2).Write
      [1, 2, 3]).1.stretch = 2 := rfl
  simp only [stretchyHash.Sum, hd, hs, hp, Run.panic_bind]

/-- C7, at every single byte, stretch 1: no 16 bits come back, in four one-hot blocks or
otherwise; `stretch` panics, on its second pass, which reads `bits[16]` of 8 bits. -/
theorem stretch_single_byte_panics (x : Byte) : stretch [x] 1 = .panic .indexOutOfRange :=
  stretch_nonempty_panics [x] 1 (by decide) (by decide) (by simp)

/-- C20. For a stretch factor in 1..4, `stretch` returns exactly when the data is empty, and
then it returns the empty byte sequence; on every other input it stops with `index out of
range`, so that `Sum` panics on every object whose base digest is not empty. -/
theorem stretch_returns_iff_empty (data : List Byte) (s : Int) (hlo : 1 ≤ s) (hhi : s ≤ 4) :
    ((∃ out, stretch data s = .ok out) ↔ data = []) ∧
    (data = [] → stretch data s = .ok []) ∧
    (data ≠ [] → stretch data s = .panic .indexOutOfRange) ∧
    (∀ (σ : Type) (sh : stretchyHash σ) (b : List Byte), sh.stretch = s →
      (sh.methods.Sum sh.h []).2 ≠ [] → sh.Sum b = .panic .indexOutOfRange) := by
  have hnil : data = [] → stretch data s = .ok [] := by
    rintro rfl
    exact stretch_nil s hlo hhi
  have hne : data ≠ [] → stretch data s = .panic .indexOutOfRange :=
    stretch_nonempty_panics data s hlo hhi
  refine ⟨⟨?_, fun h => ⟨[], hnil h⟩⟩, hnil, hne, ?_⟩
  · rintro ⟨out, hout⟩
    by_contra hd
    rw [hne hd] at hout
    cases hout
  · intro σ sh b hs hdigest
    have hp := stretch_nonempty_panics (sh.methods.Sum sh.h []).2 s hlo hhi hdigest
    simp [stretchyHash.Sum, hs, hp]

/-- Witness of C20: stretch 2, on the empty input and on the byte 7, and `Sum(nil)` on
the object over the sample hash of 32 bytes. -/
theorem stretch_returns_iff_empty_witness :
    (1 : Int) ≤ 2 ∧ (2 : Int) ≤ 4 ∧
    stretch [] 2 = .ok [] ∧
    stretch [7] 2 = .panic .indexOutOfRange ∧
    (stretchyHash.mk (sampleHash 32).methods (sampleHash 32).New 2).Sum []
      = .panic .indexOutOfRange :=
  ⟨by decide, by decide,
    (stretch_returns_iff_empty [] 2 (by decide) (by decide)).2.1 rfl,
    (stretch_returns_iff_empty [7] 2 (by decide) (by decide)).2.2.1 (by decide),
    (stretch_returns_iff_empty [] 2 (by decide) (by decide)).2.2.2 _ _ [] rfl (by decide)⟩

/-! ## The digest object -/

theorem New_some {σ : Type} (h : CryptoHash σ) (s : Int) (sh : stretchyHash σ)
    (hnew : (New h s).1 = some sh) :
    sh = { methods := h.methods, h := h.New, stretch := s } ∧ 1 ≤ s ∧ s ≤ 4 := by
  unfold New stretchLimit at hnew
  by_cases h1 : s < 1
  · simp [h1] at hnew
  · by_cases h2 : s > 4
    · simp [h1, h2] at hnew
    · simp only [if_neg h1, if_neg h2, Option.some.injEq] at hnew
      exact ⟨hnew.symm, by omega, by omega⟩

theorem after_stretch {σ : Type} (sh : stretchyHash σ) (c : Call) :
    (sh.after c).stretch = sh.stretch := by
  cases c <;> rfl

theorem afterAll_stretch {σ : Type} (calls : List Call) :
    ∀ sh : stretchyHash σ, (sh.afterAll calls).stretch = sh.stretch := by
  induction calls with
  | nil => intro sh; rfl
  | cons c cs ih =>
      intro sh
      rw [stretchyHash.afterAll, ih, after_stretch]

/-- C14. The object that `New` returns has the constructor's argument as its stretch
factor, within 1..4; no call of `Write`, `Sum`, `Reset`, `Size` or `BlockSize` changes the
field, whether the call returns or panics; so after any sequence of calls the stretch
factor is still the argument of `New`, within 1..4. -/
theorem stretch_fixed {σ : Type} (h : CryptoHash σ) (s : Int) (sh : stretchyHash σ)
    (hnew : (New h s).1 = some sh) (calls : List Call) :
    sh.stretch = s ∧ 1 ≤ sh.stretch ∧ sh.stretch ≤ 4 ∧
    (∀ (x : stretchyHash σ) (c : Call), (x.after c).stretch = x.stretch) ∧
    (∀ (x : stretchyHash σ) (b : List Byte), (x.Write b).1 = x.after (.Write b)) ∧
    (∀ (x x2 : stretchyHash σ) (b r : List Byte),
      x.Sum b = .ok (x2, r) → x2 = x.after (.Sum b)) ∧
    (∀ x : stretchyHash σ, x.Reset = x.after .Reset) ∧
    (sh.afterAll calls).stretch = s ∧
    1 ≤ (sh.afterAll calls).stretch ∧ (sh.afterAll calls).stretch ≤ 4 := by
  obtain ⟨rfl, hlo, hhi⟩ := New_some h s sh hnew
  have hall := afterAll_stretch calls
    ({ methods := h.methods, h := h.New, stretch := s } : stretchyHash σ)
  refine ⟨rfl, hlo, hhi, after_stretch, fun _ _ => rfl, ?_, fun _ => rfl, hall, ?_, ?_⟩
  · intro x x2 b r hsum
    cases hs : stretch (x.methods.Sum x.h []).2 x.stretch with
    | ok out =>
        simp [stretchyHash.Sum, hs] at hsum
        exact hsum.1.symm
    | panic p =>
        simp [stretchyHash.Sum, hs] at hsum
  · rw [hall]; exact hlo
  · rw [hall]; exact hhi

/-- Witness of C14: the object over the sample hash at stretch 3, after a write, a `Sum`
(which panics), a reset, the two size queries and another write. -/
theorem stretch_fixed_witness :
    (New (sampleHash 32) 3).1 = some (stretchyHash.mk (sampleHash 32).methods [] 3) ∧
    ((stretchyHash.mk (sampleHash 32).methods [] 3).afterAll
      [.Write [1], .Sum [], .Reset, .Size, .BlockSize, .Write [2]]).stretch = 3 :=
  ⟨rfl, (stretch_fixed (sampleHash 32) 3 (stretchyHash.mk (sampleHash 32).methods [] 3) rfl
    [.Write [1], .Sum [], .Reset, .Size, .BlockSize, .Write [2]]).2.2.2.2.2.2.2.1⟩

/-- C15. Over a base hash whose `Sum` leaves its state as it was, `Sum` leaves the object
as it was, base state and stretch factor, whether it returns or panics; a second `Sum`
with the same prefix then does what the first did: it returns the same bytes when the
first returned, and panics the same way when the first panicked. -/
theorem Sum_nondestructive {σ : Type} (sh : stretchyHash σ) (b : List Byte)
    (hpure : ∀ (st : σ) (p : List Byte), (sh.methods.Sum st p).1 = st) :
    sh.after (.Sum b) = sh ∧
    (∀ (sh2 : stretchyHash σ) (r : List Byte), sh.Sum b = .ok (sh2, r) →
      sh2 = sh ∧ sh2.Sum b = .ok (sh2, r)) ∧
    (sh.after (.Sum b)).Sum b = sh.Sum b := by
  have hafter : sh.after (.Sum b) = sh := by
    simp only [stretchyHash.after, hpure]
  refine ⟨hafter, ?_, by rw [hafter]⟩
  intro sh2 r hsum
  have h2 : sh2 = sh := by
    cases hs : stretch (sh.methods.Sum sh.h []).2 sh.stretch with
    | ok out =>
        simp [stretchyHash.Sum, hs, hpure] at hsum
        exact hsum.1.symm
    | panic p =>
        simp [stretchyHash.Sum, hs] at hsum
  subst h2
  exact ⟨rfl, hsum⟩

/-- Witness of C15: the sample hash with an empty digest, stretch 2, prefix `[1, 2]`:
`Sum` returns `[1, 2]`, twice. -/
theorem Sum_nondestructive_witness :
    (∀ (st : List Byte) (p : List Byte), ((sampleHash 0).methods.Sum st p).1 = st) ∧
    (stretchyHash.mk (sampleHash 0).methods [] 2).Sum [1, 2]
      = .ok (stretchyHash.mk (sampleHash 0).methods [] 2, [1, 2]) ∧
    ((stretchyHash.mk (sampleHash 0).methods [] 2).after (.Sum [1, 2])).Sum [1, 2]
      = .ok (stretchyHash.mk (sampleHash 0).methods [] 2, [1, 2]) := by
  have hfirst : (stretchyHash.mk (sampleHash 0).methods [] 2).Sum [1, 2]
      = .ok (stretchyHash.mk (sampleHash 0).methods [] 2, [1, 2]) := rfl
  have h := Sum_nondestructive (stretchyHash.mk (sampleHash 0).methods [] 2) [1, 2]
    (fun _ _ => rfl)
  exact ⟨fun _ _ => rfl, hfirst, h.2.2.trans hfirst⟩

/-- C16. Over a base hash whose `Reset` gives the state of a fresh instance, an object from
`New` that is written `x` is, after `Sum(nil)`, `Reset()` and `Write(x)` again, the object
it was after the first write, and `Sum(nil)` does on it what it did the first time, the
same bytes when it returned; a second object from `New` with the same algorithm and
stretch factor, written `x`, does the same as well. -/
theorem Reset_same_digest {σ : Type} (h : CryptoHash σ) (s : Int) (x : List Byte)
    (sh sh2 : stretchyHash σ) (hnew : (New h s).1 = some sh) (hnew2 : (New h s).1 = some sh2)
    (hreset : ∀ st : σ, h.methods.Reset st = h.New) :
    ((((sh.Write x).1.after (.Sum [])).Reset).Write x).1 = (sh.Write x).1 ∧
    ((((sh.Write x).1.after (.Sum [])).Reset).Write x).1.Sum [] = (sh.Write x).1.Sum [] ∧
    (sh2.Write x).1.Sum [] = (sh.Write x).1.Sum [] := by
  obtain ⟨rfl, -, -⟩ := New_some h s sh hnew
  obtain ⟨rfl, -, -⟩ := New_some h s sh2 hnew2
  have hback : ((((stretchyHash.mk h.methods h.New s).Write x).1.after (.Sum [])).Reset)
      = stretchyHash.mk h.methods h.New s := by
    simp [stretchyHash.Reset, stretchyHash.after, stretchyHash.Write, hreset]
  refine ⟨by rw [hback], by rw [hback], rfl⟩

/-- Witness of C16: the sample hash with an empty digest at stretch 1, written `[1, 2, 3]`. -/
theorem Reset_same_digest_witness :
    (New (sampleHash 0) 1).1 = some (stretchyHash.mk (sampleHash 0).methods [] 1) ∧
    (∀ st : List Byte, (sampleHash 0).methods.Reset st = (sampleHash 0).New) ∧
    (((((stretchyHash.mk (sampleHash 0).methods [] 1).Write [1, 2, 3]).1.after
      (.Sum [])).Reset).Write [1, 2, 3]).1.Sum []
      = ((stretchyHash.mk (sampleHash 0).methods [] 1).Write [1, 2, 3]).1.Sum [] :=
  ⟨rfl, fun _ => rfl,
    (Reset_same_digest (sampleHash 0) 1 [1, 2, 3] (stretchyHash.mk (sampleHash 0).methods [] 1)
      (stretchyHash.mk (sampleHash 0).methods [] 1) rfl rfl (fun _ => rfl)).2.1⟩

/-- C17. `Write(b)` is the base hash's `Write(b)` on the base state: it returns the count
and the error that the base hash returned, the new base state is the one the base hash
produced, and the rest of the object is as it was. -/
theorem Write_passthrough {σ : Type} (sh : stretchyHash σ) (b : List Byte) :
    (sh.Write b).2.1 = (sh.methods.Write sh.h b).2.1 ∧
    (sh.Write b).2.2 = (sh.methods.Write sh.h b).2.2 ∧
    (sh.Write b).1.h = (sh.methods.Write sh.h b).1 ∧
    (sh.Write b).1.stretch = sh.stretch ∧
    (sh.Write b).1.methods = sh.methods :=
  ⟨rfl, rfl, rfl, rfl, rfl⟩

/-- C18. For a stretch factor in 1..4 the object from `New` reports the block size of the
base hash; `BlockSize()` does not read the stretch factor. -/
theorem BlockSize_eq_base {σ : Type} (h : CryptoHash σ) (s : Int) (hlo : 1 ≤ s) (hhi : s ≤ 4) :
    ∃ sh : stretchyHash σ, New h s = (some sh, none) ∧
      sh.BlockSize = h.methods.BlockSize h.New ∧
      ∀ (x : stretchyHash σ) (t : Int), ({ x with stretch := t }).BlockSize = x.BlockSize := by
  have h1 : ¬ s < 1 := by omega
  have h2 : ¬ s > stretchLimit := by unfold stretchLimit; omega
  exact ⟨{ methods := h.methods, h := h.New, stretch := s }, by simp [New, h1, h2], rfl,
    fun _ _ => rfl⟩

/-- Witness of C18: the sample hash, block size 64, at stretch 4. -/
theorem BlockSize_eq_base_witness :
    (1 : Int) ≤ 4 ∧ (4 : Int) ≤ 4 ∧
    ∃ sh : stretchyHash (List Byte), New (sampleHash 32) 4 = (some sh, none) ∧
      sh.BlockSize = 64 := by
  obtain ⟨sh, hnew, hbs, -⟩ := BlockSize_eq_base (sampleHash 32) 4 (by decide) (by decide)
  exact ⟨by decide, by decide, sh, hnew, hbs⟩

/-! ## `fromBits` on a length that is not a multiple of 8 -/

/-- C19, at one false bit and at nine bits of which only the first is true: `fromBits`
returns, with the bits past the last whole byte dropped. -/
theorem fromBits_truncates :
    fromBits [false] = .ok [] ∧
    fromBits [true, false, false, false, false, false, false, false, false] = .ok [1] := by
  refine ⟨by decide, by decide⟩

/-- C19 as amended. For bits whose number is not a multiple of 8, `fromBits` panics with
`index out of range` when one of the bits past the last whole byte is true, and otherwise
returns the `len(bits)/8` bytes of the whole bytes, fewer bits than it was given: what it
returns for the bits without those last ones. -/
theorem fromBits_partial_byte (bits : List Bool) (hpart : bits.length % 8 ≠ 0) :
    (true ∈ bits.drop (8 * (bits.length / 8)) → fromBits bits = .panic .indexOutOfRange) ∧
    (true ∉ bits.drop (8 * (bits.length / 8)) →
      ∃ out : List Byte, fromBits bits = .ok out ∧ out.length = bits.length / 8 ∧
        8 * out.length < bits.length ∧
        fromBits (bits.take (8 * (bits.length / 8))) = .ok out) := by
  have hsplit := fromBits_split bits
  have hfull : (bits.take (8 * (bits.length / 8))).length = 8 * (bits.length / 8) := by
    simp [List.length_take]; omega
  refine ⟨fun ht => by rw [hsplit, if_pos ht], fun hf => ?_⟩
  refine ⟨packBits (bits.length / 8) (bits.take (8 * (bits.length / 8))), ?_,
    packBits_length _ _, ?_, fromBits_eq _ _ hfull⟩
  · rw [hsplit, if_neg hf]
  · rw [packBits_length]; omega

/-- Witness of C19 as amended: nine bits, the ninth true, and nine bits, the ninth false. -/
theorem fromBits_partial_byte_witness :
    [true, false, false, false, false, false, false, false, true].length % 8 ≠ 0 ∧
    fromBits [true, false, false, false, false, false, false, false, true]
      = .panic .indexOutOfRange ∧
    ∃ out : List Byte,
      fromBits [true, false, false, false, false, false, false, false, false] = .ok out ∧
        out.length = 1 :=
  ⟨by decide,
    (fromBits_partial_byte [true, false, false, false, false, false, false, false, true]
      (by decide)).1 (by decide),
    (fromBits_partial_byte [true, false, false, false, false, false, false, false, false]
      (by decide)).2 (by decide) |>.imp fun _ h => ⟨h.1, h.2.1⟩⟩

end stretchyhash
